import Mathlib

/-!
Shallow embedding of the quality-control review engine of the sermon-library
repository (src/code/py/qc.py), together with proofs that settle the frozen
claims about its specification.  Machine integers are modelled as `Nat` with
explicit `% 2 ^ w` reductions, pandas data frames as lists of rows (with a
separate constructor for the column-less empty frame produced by
`pd.DataFrame()`), and the file system as an association list from paths to
contents.
-/

namespace SermonQC

/-! ### Character and string helpers (Python `str` semantics) -/

/-- Python whitespace characters used by `str.strip()`:
space (32) and the range tab..carriage-return (9..13). -/
def isWs (c : Char) : Bool := c.toNat = 32 || (9 ≤ c.toNat && c.toNat ≤ 13)

/-- Python `str.strip()` on a character list: drop whitespace from both ends. -/
def pyStrip (l : List Char) : List Char :=
  ((l.dropWhile isWs).reverse.dropWhile isWs).reverse

/-- Python `str.strip()` lifted to strings. -/
def stripStr (s : String) : String := String.mk (pyStrip s.data)

/-- Python `str.lower()` restricted to ASCII letters (the only characters the
action vocabulary of qc.py contains). -/
def lowerChar (c : Char) : Char :=
  if 65 ≤ c.toNat && c.toNat ≤ 90 then Char.ofNat (c.toNat + 32) else c

/-- Lowercasing of a whole string, modelling `action.lower()` in qc.py. -/
def lowerStr (s : String) : String := String.mk (s.data.map lowerChar)

/-- Python `w.startswith(a)` seen from the argument side: `isPre a w` is true
iff `a` is an initial segment of `w`. -/
def isPre : List Char → List Char → Bool
  | [], _ => true
  | _ :: _, [] => false
  | a :: as, b :: bs => a == b && isPre as bs

/-- Decimal digit to character, modelling how Python `str(int)` renders one digit. -/
def digitCh (d : Nat) : Char := Char.ofNat (48 + d)

/-- Little-endian decimal digits of `n`, computed with explicit fuel so the
definition is structurally recursive and kernel-reducible. -/
def natDigitsRev (fuel n : Nat) : List Nat :=
  match fuel with
  | 0 => []
  | Nat.succ f => if n = 0 then [] else n % 10 :: natDigitsRev f (n / 10)

/-- Python `str(n)` for a natural number `n`. -/
def natToString (n : Nat) : String :=
  if n = 0 then "0" else String.mk ((natDigitsRev n n).reverse.map digitCh)

/-- Python `str(i)` for an integer. -/
def intToString (i : Int) : String :=
  if i < 0 then "-" ++ natToString i.natAbs else natToString i.natAbs

/-- The name hashed by qc.py line 20: `folder_name + " " + str(x)`. -/
def encodeName (folder : String) (i : Nat) : String :=
  folder ++ " " ++ natToString i

/-- UTF-8 encoding of a single character (scalar value to bytes). -/
def utf8Char (c : Char) : List Nat :=
  let n := c.toNat
  if n < 128 then [n]
  else if n < 2048 then [192 + n / 64, 128 + n % 64]
  else if n < 65536 then [224 + n / 4096, 128 + n / 64 % 64, 128 + n % 64]
  else [240 + n / 262144, 128 + n / 4096 % 64, 128 + n / 64 % 64, 128 + n % 64]

/-- UTF-8 encoding of a string, as `uuid.uuid5` applies to its name argument. -/
def utf8Bytes (s : String) : List Nat := (s.data.map utf8Char).flatten

/-! ### SHA-1 and `uuid.uuid5` (Python stdlib, used at qc.py line 20) -/

/-- Reduce to a 32-bit word. -/
def w32 (n : Nat) : Nat := n % 4294967296

/-- Rotate a 32-bit word left by `b` bits (callers always pass `n < 2 ^ 32`). -/
def rotl (b n : Nat) : Nat := w32 (n * 2 ^ b + n / 2 ^ (32 - b))

/-- SHA-1 round constants. -/
def sha1K (i : Nat) : Nat :=
  if i < 20 then 1518500249
  else if i < 40 then 1859775393
  else if i < 60 then 2400959708
  else 3395469782

/-- SHA-1 round functions. -/
def sha1F (i b c d : Nat) : Nat :=
  if i < 20 then Nat.lor (Nat.land b c) (Nat.land (4294967295 - w32 b) d)
  else if i < 40 then Nat.xor b (Nat.xor c d)
  else if i < 60 then Nat.lor (Nat.land b c) (Nat.lor (Nat.land b d) (Nat.land c d))
  else Nat.xor b (Nat.xor c d)

/-- Split a byte list into chunks of size `k`. -/
def toChunks (k : Nat) (l : List Nat) : List (List Nat) :=
  if h : l = [] ∨ k = 0 then [] else l.take k :: toChunks k (l.drop k)
termination_by l.length
decreasing_by
  have h1 : l ≠ [] := fun hc => h (Or.inl hc)
  have h2 : k ≠ 0 := fun hc => h (Or.inr hc)
  have h3 : 0 < l.length := List.length_pos.mpr h1
  simp only [List.length_drop]
  omega

/-- Big-endian word from up to four bytes. -/
def word4 (bs : List Nat) : Nat := bs.foldl (fun a b => a * 256 + b % 256) 0

/-- Number of zero padding bytes appended by SHA-1 for a message of `len` bytes. -/
def sha1PadLen (len : Nat) : Nat := (119 - len % 64) % 64

/-- Big-endian 64-bit length field of SHA-1 padding. -/
def lenBytes8 (bitLen : Nat) : List Nat :=
  [bitLen / 2 ^ 56 % 256, bitLen / 2 ^ 48 % 256, bitLen / 2 ^ 40 % 256,
   bitLen / 2 ^ 32 % 256, bitLen / 2 ^ 24 % 256, bitLen / 2 ^ 16 % 256,
   bitLen / 2 ^ 8 % 256, bitLen % 256]

/-- SHA-1 message padding. -/
def sha1Pad (msg : List Nat) : List Nat :=
  msg ++ [128] ++ List.replicate (sha1PadLen msg.length) 0 ++ lenBytes8 (msg.length * 8)

/-- The five-word SHA-1 state. -/
structure Hv where
  a : Nat
  b : Nat
  c : Nat
  d : Nat
  e : Nat

/-- One SHA-1 compression round; `iw` is the pair (round index, schedule word). -/
def sha1Step (s : Hv) (iw : Nat × Nat) : Hv :=
  Hv.mk (w32 (rotl 5 s.a + sha1F iw.fst s.b s.c s.d + s.e + sha1K iw.fst + iw.snd))
    s.a (rotl 30 s.b) s.c s.d

/-- Extend the sixteen chunk words to the eighty-word message schedule. -/
def sha1Extend (ws : List Nat) : List Nat :=
  (List.range 64).foldl
    (fun acc _ =>
      acc ++ [rotl 1 (Nat.xor (acc.getD (acc.length - 3) 0)
        (Nat.xor (acc.getD (acc.length - 8) 0)
          (Nat.xor (acc.getD (acc.length - 14) 0) (acc.getD (acc.length - 16) 0))))])
    ws

/-- Process one 64-byte chunk. -/
def processChunk (h : Hv) (chunk : List Nat) : Hv :=
  let ws := sha1Extend ((toChunks 4 chunk).map word4)
  let s := ws.enum.foldl sha1Step h
  Hv.mk (w32 (h.a + s.a)) (w32 (h.b + s.b)) (w32 (h.c + s.c))
    (w32 (h.d + s.d)) (w32 (h.e + s.e))

/-- Big-endian bytes of a 32-bit word. -/
def wordBytes (w : Nat) : List Nat :=
  [w / 2 ^ 24 % 256, w / 2 ^ 16 % 256, w / 2 ^ 8 % 256, w % 256]

/-- SHA-1 digest (twenty bytes) of a byte list. -/
def sha1 (msg : List Nat) : List Nat :=
  let h := (toChunks 64 (sha1Pad msg)).foldl processChunk
    (Hv.mk 1732584193 4023233417 2562383102 271733878 3285377520)
  wordBytes h.a ++ wordBytes h.b ++ wordBytes h.c ++ wordBytes h.d ++ wordBytes h.e

/-- The sixteen bytes of `uuid.NAMESPACE_DNS`. -/
def nsDNS : List Nat :=
  [107, 167, 184, 16, 157, 173, 17, 209, 128, 180, 0, 192, 79, 212, 48, 200]

/-- Replace the byte at index `i`. -/
def setByte (l : List Nat) (i v : Nat) : List Nat := l.take i ++ [v] ++ l.drop (i + 1)

/-- The sixteen bytes of `uuid.uuid5(uuid.NAMESPACE_DNS, name)`: SHA-1 of the
namespace followed by the name bytes, truncated to 16 bytes, with the version
nibble set to 5 and the variant bits set to 10. -/
def uuid5Bytes (nameBytes : List Nat) : List Nat :=
  let d := (sha1 (nsDNS ++ nameBytes)).take 16
  let d1 := setByte d 6 (d.getD 6 0 % 16 + 80)
  setByte d1 8 (d1.getD 8 0 % 64 + 128)

/-- Hexadecimal digit character. -/
def hexDigitCh (d : Nat) : Char :=
  if d < 10 then Char.ofNat (48 + d) else Char.ofNat (87 + d)

/-- Two hexadecimal characters of one byte (depends only on the byte mod 256). -/
def hexByte (b : Nat) : List Char := [hexDigitCh (b / 16 % 16), hexDigitCh (b % 16)]

/-- The canonical 8-4-4-4-12 textual form of a UUID, as `str(uuid.uuid5(...))`. -/
def uuidFormat (bytes : List Nat) : String :=
  let hx := (bytes.map hexByte).flatten
  String.mk (hx.take 8 ++ ['-'] ++ (hx.drop 8).take 4 ++ ['-'] ++
    (hx.drop 12).take 4 ++ ['-'] ++ (hx.drop 16).take 4 ++ ['-'] ++ hx.drop 20)

/-- The uid assigned at import (qc.py line 20):
`str(uuid.uuid5(uuid.NAMESPACE_DNS, folder_name + " " + str(x)))`. -/
def uidString (folder : String) (i : Nat) : String :=
  uuidFormat (uuid5Bytes (utf8Bytes (encodeName folder i)))

/-- Big-endian numeric value of a byte list. -/
def bytesToNat : List Nat → Nat
  | [] => 0
  | b :: rest => b % 256 * 256 ^ rest.length + bytesToNat rest

/-- Numeric value of the uid of a segment, used for counting arguments. -/
def uidNat (folder : String) (i : Nat) : Nat :=
  bytesToNat (uuid5Bytes (utf8Bytes (encodeName folder i)))

/-! ### Data model: ledger rows and imported segments -/

/-- One ledger row of qc.csv: recording name, per-recording sequence id, uid,
machine transcript, reviewer label, and the avg_logprob confidence score
(modelled as an integer scale). -/
structure Row where
  name : String
  id : Nat
  uid : String
  text : String
  label : String
  conf : Int
deriving DecidableEq

/-- Replace the label of a row (`qc.at[index, "label"] = v`). -/
def setLabel (r : Row) (v : String) : Row :=
  Row.mk r.name r.id r.uid r.text v r.conf

/-- One entry of a recording's result.json segment list. -/
structure Seg where
  id : Nat
  text : String
  conf : Int
deriving DecidableEq

/-- `json2segments` (qc.py lines 14-22): one unlabeled row per segment, tagged
with the folder name and the deterministic uid. -/
def json2segments (folder : String) (segs : List Seg) : List Row :=
  segs.map (fun s => Row.mk folder s.id (uidString folder s.id) s.text "" s.conf)

/-- The deduplication key `(recording_id, sequence_id)`, i.e. the pandas
`subset=["name", "id"]` of qc.py line 161. -/
def keyOf (r : Row) : String × Nat := (r.name, r.id)

/-- Worker of first-seen deduplication: keep a row iff its key was not seen. -/
def dedupGo (seen : List (String × Nat)) : List Row → List Row
  | [] => []
  | r :: rest =>
    if keyOf r ∈ seen then dedupGo seen rest
    else r :: dedupGo (keyOf r :: seen) rest

/-- `drop_duplicates(subset=["name", "id"], keep="first")`. -/
def dedupFirst (l : List Row) : List Row := dedupGo [] l

/-- Merge-insert (qc.py line 161):
`pd.concat([qc0, qc1]).drop_duplicates(subset=["name", "id"], keep="first")`. -/
def mergeInsert (qc0 qc1 : List Row) : List Row := dedupFirst (qc0 ++ qc1)

/-- First row with the given key, if any. -/
def findKey (k : String × Nat) (l : List Row) : Option Row :=
  l.find? (fun r => keyOf r == k)

/-- Keys seen after scanning a list of rows during first-seen deduplication. -/
def keysAfter (seen : List (String × Nat)) (l : List Row) : List (String × Nat) :=
  l.foldl (fun s r => if keyOf r ∈ s then s else keyOf r :: s) seen

/-! ### Sorting and saving the ledger -/

/-- The sort key of `sort_and_save_qc` (qc.py line 27): by `id` then `name`,
both ascending. -/
def rowLe (a b : Row) : Bool :=
  decide (a.id < b.id) || (decide (a.id = b.id) && decide (a.name ≤ b.name))

/-- `qc.sort_values(by=["id", "name"], ascending=[True, True])`. -/
def sortLedger (l : List Row) : List Row := l.mergeSort rowLe

/-- Ascending confidence order of the review traversal (qc.py line 172). -/
def confLe (a b : Row) : Bool := decide (a.conf ≤ b.conf)

/-- `qc.sort_values(by="avg_logprob", ascending=True)`. -/
def sortByConf (l : List Row) : List Row := l.mergeSort confLe

/-- One CSV line of a row, modelling `to_csv` output for that row. -/
def toCsvLine (r : Row) : String :=
  r.name ++ "," ++ natToString r.id ++ "," ++ r.uid ++ "," ++ r.text ++ "," ++
    r.label ++ "," ++ intToString r.conf

/-- The whole CSV text written by `qc.to_csv(qc_file, index=False)`. -/
def toCsv (rows : List Row) : String :=
  (rows.map toCsvLine).foldl (fun acc line => acc ++ line ++ "\n")
    "name,id,uid,text,label,avg_logprob\n"

/-! ### File-system model -/

/-- A file system: an association list from paths to file contents. -/
abbrev Fs := List (String × String)

/-- Content of the file at a path, if present. -/
def fsGet (fs : Fs) (p : String) : Option String :=
  (fs.find? (fun e => e.fst == p)).map Prod.snd

/-- Create or overwrite the file at a path. -/
def fsSet (fs : Fs) (p c : String) : Fs :=
  (p, c) :: fs.filter (fun e => !(e.fst == p))

/-- Delete the file at a path. -/
def fsErase (fs : Fs) (p : String) : Fs := fs.filter (fun e => !(e.fst == p))

/-- `os.rename(src, dst)`: move the file when the source exists. -/
def fsRename (fs : Fs) (src dst : String) : Fs :=
  match fsGet fs src with
  | none => fs
  | some c => fsSet (fsErase fs src) dst c

/-- Committing a clip (qc.py lines 224-226, 252-254, 264-266, 279-281):
`if not os.path.exists(uid_audio): os.rename(temp_clip, uid_audio)`. -/
def commitClip (fs : Fs) (tempPath uidPath : String) : Fs :=
  if (fsGet fs uidPath).isSome then fs else fsRename fs tempPath uidPath

/-- A file-system operation performed while saving. -/
inductive FsOp where
  | openTrunc : String → FsOp
  | writeAll : String → String → FsOp
deriving DecidableEq

/-- Effect of one operation: opening for writing truncates the file, then the
write fills in the full content. -/
def applyOp (fs : Fs) : FsOp → Fs
  | FsOp.openTrunc p => fsSet fs p ""
  | FsOp.writeAll p c => fsSet fs p c

/-- Apply a list of operations in order (a failure partway corresponds to
applying only a `take`-generated front of the list). -/
def runOps (fs : Fs) (ops : List FsOp) : Fs := ops.foldl applyOp fs

/-- The operations performed by `sort_and_save_qc` (qc.py lines 25-29): sort by
`(id, name)` ascending, then `to_csv(qc_file)`, which opens the ledger file
itself for writing (truncating it in place) and writes the new content.  No
temporary file and no rename are involved. -/
def saveTrace (rows : List Row) (qcFile : String) : List FsOp :=
  [FsOp.openTrunc qcFile, FsOp.writeAll qcFile (toCsv (sortLedger rows))]

/-! ### Startup: load, merge, strip (qc.py lines 138-169) -/

/-- A pandas data frame: `nocols` is the column-less empty frame produced by
`pd.DataFrame()` when qc.csv does not exist; `cols` is a frame with the ledger
columns (possibly zero rows). -/
inductive Df where
  | nocols : Df
  | cols : List Row → Df
deriving DecidableEq

/-- Rows of a frame. -/
def rowsOf : Df → List Row
  | Df.nocols => []
  | Df.cols rows => rows

/-- Loading the ledger (qc.py lines 139-143): read qc.csv when it exists,
otherwise the column-less `pd.DataFrame()`. -/
def loadQc (fileExists : Bool) (saved : List Row) : Df :=
  if fileExists then Df.cols saved else Df.nocols

/-- The merge phase (qc.py lines 159-165): when no new segments were imported
the frame is left as loaded; otherwise concatenate and drop duplicate keys. -/
def mergePhase (qc0 : Df) (imported : List Row) : Df :=
  if imported.isEmpty then qc0 else Df.cols (mergeInsert (rowsOf qc0) imported)

/-- The strip phase (qc.py lines 167-169): `qc["text"] = qc["text"].str.strip()`
raises a KeyError when the frame has no columns; otherwise both text and label
are stripped. -/
def stripRow (r : Row) : Row :=
  Row.mk r.name r.id r.uid (stripStr r.text) (stripStr r.label) r.conf

/-- Strip phase as a fallible step: the column-less frame raises. -/
def stripPhase : Df → Except String (List Row)
  | Df.nocols => Except.error "KeyError: text"
  | Df.cols rows => Except.ok (rows.map stripRow)

/-- The startup pipeline of `qc_transcribed` up to line 169: load the ledger,
merge the imported rows, strip text and label columns. -/
def qcStartup (fileExists : Bool) (saved imported : List Row) :
    Except String (List Row) :=
  stripPhase (mergePhase (loadQc fileExists saved) imported)

/-- Importing one recording folder (qc.py lines 148-157): skipped when its name
is already in the ledger, otherwise `json2segments` of its result.json. -/
def importFolder (qc0 : List Row) (folder : String) (segs : List Seg) : List Row :=
  if folder ∈ qc0.map Row.name then [] else json2segments folder segs

/-- One import-and-merge run for a single recording, ending in the sorted state
that `sort_and_save_qc` persists (qc.py lines 148-165 and 292). -/
def runImport (qc0 : List Row) (folder : String) (segs : List Seg) : List Row :=
  let fresh := importFolder qc0 folder segs
  let qc := if fresh.isEmpty then qc0 else mergeInsert qc0 fresh
  sortLedger qc

/-! ### Review traversal order (qc.py lines 172-198) -/

/-- Rows at the start of traversal: the ledger after the strip phase. -/
def sessionRows (rows : List Row) : List Row := rows.map stripRow

/-- The sequence of rows presented for review: sorted by ascending confidence;
a row is shown iff (revisit, or its label strips to empty) and its source audio
was found (qc.py lines 187-198). -/
def traversal (revisit : Bool) (audioOk : Row → Bool) (rows : List Row) : List Row :=
  (sortByConf (sessionRows rows)).filter
    (fun r => (revisit || stripStr r.label == "") && audioOk r)

/-! ### The action loop (qc.py lines 210-290) -/

/-- Result of dispatching one reviewer action token. -/
inductive ActR where
  | accept
  | replay
  | context
  | inaudible
  | label
  | save
  | skip
  | quit
  | unrecognized
deriving DecidableEq

/-- The sequential prefix dispatch of qc.py lines 217-287: each test is
`word.startswith(action.lower())`, tried in the textual order of the elif
chain; `quit` and `exit` share one branch. -/
def resolveAction (tok : String) : ActR :=
  let a := (lowerStr tok).data
  if a.isEmpty || isPre a "accept".data then ActR.accept
  else if isPre a "replay".data then ActR.replay
  else if isPre a "context".data then ActR.context
  else if isPre a "inaudible".data then ActR.inaudible
  else if isPre a "label".data then ActR.label
  else if isPre a "save".data then ActR.save
  else if isPre a "skip".data then ActR.skip
  else if isPre a "quit".data || isPre a "exit".data then ActR.quit
  else ActR.unrecognized

/-- The documented action vocabulary (qc.py line 210). -/
def vocab8 : List String :=
  ["accept", "replay", "context", "inaudible", "label", "save", "skip", "quit"]

/-- The action a vocabulary word stands for. -/
def actOf (w : String) : ActR :=
  if w = "accept" then ActR.accept
  else if w = "replay" then ActR.replay
  else if w = "context" then ActR.context
  else if w = "inaudible" then ActR.inaudible
  else if w = "label" then ActR.label
  else if w = "save" then ActR.save
  else if w = "skip" then ActR.skip
  else if w = "quit" then ActR.quit
  else ActR.unrecognized

/-- Label normalization pieces (qc.py lines 258-262).  One left-to-right pass
of `s.replace("  ", " ")`: each non-overlapping double space becomes one. -/
def replacePairs : List Char → List Char
  | [] => []
  | [c] => [c]
  | c1 :: c2 :: rest =>
    if c1 = ' ' && c2 = ' ' then ' ' :: replacePairs rest
    else c1 :: replacePairs (c2 :: rest)

/-- Whether `"  " in s` holds. -/
def hasDouble : List Char → Bool
  | [] => false
  | [_] => false
  | c1 :: c2 :: rest => (c1 = ' ' && c2 = ' ') || hasDouble (c2 :: rest)

/-- The `while "  " in new_label:` loop, with fuel (each pass strictly shortens
the list, so `l.length` fuel always reaches the fixed point). -/
def collapseLoop : Nat → List Char → List Char
  | 0, l => l
  | Nat.succ fuel, l => if hasDouble l then collapseLoop fuel (replacePairs l) else l

/-- Replace every occurrence of character `a` by `b`
(`s.replace("\t", " ")` and `s.replace("\n", " ")`). -/
def replaceChar (a b : Char) (l : List Char) : List Char :=
  l.map (fun c => if c = a then b else c)

/-- The label stored by the `label` action for raw dialog text: the dialog
returns the text stripped (`get_paragraph_input`, qc.py line 98), then tabs and
line breaks become spaces and double spaces are collapsed in a loop
(qc.py lines 259-262). -/
def storedLabel (raw : String) : String :=
  let l := replaceChar '\n' ' ' (replaceChar '\t' ' ' (pyStrip raw.data))
  String.mk (collapseLoop l.length l)

/-- Direct one-pass collapse of every run of spaces to a single space, written
from the words of the specification for comparison with `storedLabel`. -/
def collapseRuns : List Char → List Char
  | [] => []
  | [c] => [c]
  | c1 :: c2 :: rest =>
    if c1 = ' ' && c2 = ' ' then collapseRuns (c2 :: rest)
    else c1 :: collapseRuns (c2 :: rest)

/-- Modelled from the spec: the claimed normalization — strip leading/trailing
whitespace, replace every tab and line break with a space, collapse every run
of consecutive spaces to a single space. -/
def specNormalize (raw : String) : String :=
  let l := replaceChar '\n' ' ' (replaceChar '\t' ' ' (pyStrip raw.data))
  String.mk (collapseRuns l)

/-- Mutation of the current row by the `accept` branch (qc.py lines 217-223):
the label becomes the transcript only when it was empty. -/
def acceptRow (r : Row) : Row := if r.label = "" then setLabel r r.text else r

/-- Outcome of one run of the inner `while True` action loop for one row. -/
inductive LoopResult where
  | finished : Row → Fs → Bool → LoopResult
  | starved : Row → Fs → LoopResult
deriving DecidableEq

/-- The inner action loop on a scripted token list (qc.py lines 211-290):
non-terminal actions (replay, context, save, unrecognized) re-prompt; terminal
actions mutate the row, commit the scratch clip, and break; quit (or exit)
breaks without mutation and the Boolean records that the whole traversal then
stops (qc.py lines 289-290).  `starved` stands for the real loop blocking on
further input. -/
def actionLoop (tempPath uidPath dialog : String) :
    Row → Fs → List String → LoopResult
  | row, fs, [] => LoopResult.starved row fs
  | row, fs, tok :: rest =>
    match resolveAction tok with
    | ActR.accept =>
        LoopResult.finished (acceptRow row) (commitClip fs tempPath uidPath) false
    | ActR.replay => actionLoop tempPath uidPath dialog row fs rest
    | ActR.context => actionLoop tempPath uidPath dialog row fs rest
    | ActR.inaudible =>
        LoopResult.finished (setLabel row "<inaudible>")
          (commitClip fs tempPath uidPath) false
    | ActR.label =>
        LoopResult.finished (setLabel row (storedLabel dialog))
          (commitClip fs tempPath uidPath) false
    | ActR.save => actionLoop tempPath uidPath dialog row fs rest
    | ActR.skip =>
        LoopResult.finished (setLabel row "[skipped]")
          (commitClip fs tempPath uidPath) false
    | ActR.quit => LoopResult.finished row fs true
    | ActR.unrecognized => actionLoop tempPath uidPath dialog row fs rest

/-! ### Concrete values used by witnesses and counterexamples -/

/-- A sample unlabeled row. -/
def rowU : Row := Row.mk "rec" 0 "uid0" "hello" "" (-1)

/-- A sample labeled row. -/
def rowL : Row := Row.mk "rec" 1 "uid1" "world" "fixed" (-9)

/-- A file system holding a previously persisted ledger. -/
def fsOld : Fs := [("qc.csv", "old")]

/-- A file system holding only a scratch clip. -/
def fsTmp : Fs := [("temp_clip.mp3", "clipdata")]

/-! ## Helper lemmas -/

theorem rowLe_trans (a b c : Row) (h1 : rowLe a b) (h2 : rowLe b c) : rowLe a c = true := by
  simp only [rowLe, Bool.or_eq_true, Bool.and_eq_true, decide_eq_true_eq] at h1 h2 ⊢
  rcases h1 with h1 | ⟨h1, h1n⟩ <;> rcases h2 with h2 | ⟨h2, h2n⟩
  · exact Or.inl (Nat.lt_trans h1 h2)
  · exact Or.inl (h2 ▸ h1)
  · exact Or.inl (h1 ▸ h2)
  · exact Or.inr ⟨h1.trans h2, le_trans h1n h2n⟩

theorem rowLe_total (a b : Row) : rowLe a b || rowLe b a := by
  simp only [rowLe, Bool.or_eq_true, Bool.and_eq_true, decide_eq_true_eq]
  rcases Nat.lt_trichotomy a.id b.id with h | h | h
  · exact Or.inl (Or.inl h)
  · rcases le_total a.name b.name with hn | hn
    · exact Or.inl (Or.inr ⟨h, hn⟩)
    · exact Or.inr (Or.inr ⟨h.symm, hn⟩)
  · exact Or.inr (Or.inl h)

theorem confLe_trans (a b c : Row) (h1 : confLe a b) (h2 : confLe b c) : confLe a c = true := by
  simp only [confLe, decide_eq_true_eq] at h1 h2 ⊢
  exact le_trans h1 h2

theorem confLe_total (a b : Row) : confLe a b || confLe b a := by
  simp only [confLe, Bool.or_eq_true, decide_eq_true_eq]
  exact le_total a.conf b.conf

theorem sortLedger_idem (l : List Row) : sortLedger (sortLedger l) = sortLedger l :=
  List.mergeSort_of_sorted (List.sorted_mergeSort rowLe_trans rowLe_total l)

theorem mem_sortLedger (r : Row) (l : List Row) : r ∈ sortLedger l ↔ r ∈ l :=
  List.mem_mergeSort

/-! ## C2: the session is claimed never to raise an unhandled exception -/

/-- C2: the claim fails on the code.  With no persisted ledger and no new
segment-list files, the merged frame is the column-less `pd.DataFrame()` and
`qc["text"].str.strip()` (qc.py line 168) raises a pandas `KeyError`,
terminating `qc_transcribed` — so the review session does not terminate
cleanly on this input, contradicting the claim. -/
theorem c2_empty_ledger_raises :
    qcStartup false [] [] = Except.error "KeyError: text" := rfl

/-! ## C1: save sorts and is claimed to write atomically -/

/-- C1 counterexample: the save of qc.py lines 25-29 is not atomic.  Starting
from a file system whose qc.csv holds "old", running only the first step of
the save trace (the truncating open performed by `to_csv`) leaves qc.csv empty:
its content is neither the previous one nor the new one, so a write failing
partway has corrupted the previously persisted ledger, refuting the claim. -/
theorem c1_counterexample :
    fsGet fsOld "qc.csv" = some "old" ∧
    fsGet (runOps fsOld ((saveTrace [rowU] "qc.csv").take 1)) "qc.csv" = some "" ∧
    fsGet (runOps fsOld ((saveTrace [rowU] "qc.csv").take 1)) "qc.csv" ≠
      fsGet fsOld "qc.csv" ∧
    fsGet (runOps fsOld ((saveTrace [rowU] "qc.csv").take 1)) "qc.csv" ≠
      fsGet (runOps fsOld (saveTrace [rowU] "qc.csv")) "qc.csv" := by
  have hs : sortLedger [rowU] = [rowU] := by simp [sortLedger]
  have ht : saveTrace [rowU] "qc.csv" =
      [FsOp.openTrunc "qc.csv", FsOp.writeAll "qc.csv" (toCsv [rowU])] := by
    simp [saveTrace, hs]
  rw [ht]
  refine ⟨rfl, rfl, ?_, ?_⟩ <;> decide

/-- C1 amended: `save` does sort the rows by `(sequence_id, recording_id)`
ascending (a permutation of the input in that order), and a completed save
leaves the sorted CSV in the ledger file; but the write happens by truncating
the ledger file in place, so after the truncating open and before the write
the previously persisted content is already lost (no temporary file, no
atomic replace). -/
theorem c1_amended (rows : List Row) (fs : Fs) (qcFile : String) :
    List.Pairwise (fun a b : Row => a.id < b.id ∨ (a.id = b.id ∧ a.name ≤ b.name))
      (sortLedger rows) ∧
    (sortLedger rows).Perm rows ∧
    fsGet (runOps fs (saveTrace rows qcFile)) qcFile =
      some (toCsv (sortLedger rows)) ∧
    fsGet (runOps fs ((saveTrace rows qcFile).take 1)) qcFile = some "" := by
  refine ⟨?_, List.mergeSort_perm rows rowLe, ?_, ?_⟩
  · refine (List.sorted_mergeSort rowLe_trans rowLe_total rows).imp ?_
    intro a b h
    simpa [rowLe, Bool.or_eq_true, Bool.and_eq_true, decide_eq_true_eq] using h
  · show fsGet (fsSet (fsSet fs qcFile "") qcFile (toCsv (sortLedger rows))) qcFile = _
    simp [fsGet, fsSet]
  · show fsGet (fsSet fs qcFile "") qcFile = some ""
    simp [fsGet, fsSet]

/-! ## C9: label normalization -/

theorem replacePairs_cons (c : Char) (rest : List Char) :
    ∃ t, replacePairs (c :: rest) = c :: t := by
  cases rest with
  | nil => exact ⟨[], rfl⟩
  | cons c2 r2 =>
    by_cases h : c = ' ' ∧ c2 = ' '
    · obtain ⟨h1, h2⟩ := h
      subst h1; subst h2
      exact ⟨replacePairs r2, by simp [replacePairs]⟩
    · refine ⟨replacePairs (c2 :: r2), ?_⟩
      have hb : (decide (c = ' ') && decide (c2 = ' ')) = false := by
        rcases not_and_or.mp h with h | h <;> simp [h]
      simp [replacePairs, hb]

theorem collapseRuns_replacePairs : ∀ l : List Char,
    collapseRuns (replacePairs l) = collapseRuns l
  | [] => rfl
  | [_] => rfl
  | c1 :: c2 :: rest => by
    by_cases h : c1 = ' ' ∧ c2 = ' '
    · obtain ⟨h1, h2⟩ := h
      subst h1; subst h2
      have hrp : replacePairs (' ' :: ' ' :: rest) = ' ' :: replacePairs rest := by
        simp [replacePairs]
      rw [hrp]
      cases rest with
      | nil => rfl
      | cons r rs =>
        obtain ⟨t, ht⟩ := replacePairs_cons r rs
        have ih := collapseRuns_replacePairs (r :: rs)
        rw [ht] at ih ⊢
        by_cases hr : r = ' '
        · subst hr
          simp [collapseRuns, ih]
        · simp [collapseRuns, hr, ih]
    · have hb : (decide (c1 = ' ') && decide (c2 = ' ')) = false := by
        rcases not_and_or.mp h with h | h <;> simp [h]
      have hrp : replacePairs (c1 :: c2 :: rest) = c1 :: replacePairs (c2 :: rest) := by
        simp [replacePairs, hb]
      obtain ⟨t, ht⟩ := replacePairs_cons c2 rest
      have ih := collapseRuns_replacePairs (c2 :: rest)
      rw [hrp]
      rw [ht] at ih ⊢
      simp [collapseRuns, hb, ih]
termination_by l => l.length

theorem collapseRuns_of_not_hasDouble : ∀ l : List Char,
    hasDouble l = false → collapseRuns l = l
  | [], _ => rfl
  | [_], _ => rfl
  | c1 :: c2 :: rest, h => by
    simp only [hasDouble, Bool.or_eq_false_iff] at h
    obtain ⟨h1, h2⟩ := h
    have ih := collapseRuns_of_not_hasDouble (c2 :: rest) h2
    simp [collapseRuns, h1, ih]
termination_by l => l.length

theorem replacePairs_length_le : ∀ l : List Char,
    (replacePairs l).length ≤ l.length
  | [] => Nat.le_refl _
  | [_] => Nat.le_refl _
  | c1 :: c2 :: rest => by
    by_cases h : c1 = ' ' ∧ c2 = ' '
    · obtain ⟨h1, h2⟩ := h
      subst h1; subst h2
      have ih := replacePairs_length_le rest
      simp only [replacePairs, decide_True, Bool.and_self, if_true, List.length_cons]
      omega
    · have hb : (decide (c1 = ' ') && decide (c2 = ' ')) = false := by
        rcases not_and_or.mp h with h | h <;> simp [h]
      have ih := replacePairs_length_le (c2 :: rest)
      simp only [replacePairs, hb, Bool.false_eq_true, if_false, List.length_cons]
      simp only [List.length_cons] at ih
      omega
termination_by l => l.length

theorem replacePairs_length_lt : ∀ l : List Char,
    hasDouble l = true → (replacePairs l).length < l.length
  | [], h => by simp [hasDouble] at h
  | [_], h => by simp [hasDouble] at h
  | c1 :: c2 :: rest, h => by
    simp only [hasDouble, Bool.or_eq_true] at h
    by_cases hc : c1 = ' ' ∧ c2 = ' '
    · obtain ⟨h1, h2⟩ := hc
      subst h1; subst h2
      have hle := replacePairs_length_le rest
      simp only [replacePairs, decide_True, Bool.and_self, if_true, List.length_cons]
      omega
    · have hb : (decide (c1 = ' ') && decide (c2 = ' ')) = false := by
        rcases not_and_or.mp hc with h | h <;> simp [h]
      have hd : hasDouble (c2 :: rest) = true := by
        rcases h with h | h
        · rw [hb] at h
          exact absurd h (by simp)
        · exact h
      have ih := replacePairs_length_lt (c2 :: rest) hd
      simp only [replacePairs, hb, Bool.false_eq_true, if_false, List.length_cons]
      simp only [List.length_cons] at ih
      omega
termination_by l => l.length

theorem collapseLoop_eq_collapseRuns : ∀ (fuel : Nat) (l : List Char),
    l.length ≤ fuel → collapseLoop fuel l = collapseRuns l := by
  intro fuel
  induction fuel with
  | zero =>
    intro l hl
    have : l = [] := List.length_eq_zero.mp (Nat.le_zero.mp hl)
    subst this
    rfl
  | succ f ih =>
    intro l hl
    cases hd : hasDouble l with
    | false => simp [collapseLoop, hd, collapseRuns_of_not_hasDouble l hd]
    | true =>
      have hlt := replacePairs_length_lt l hd
      have := ih (replacePairs l) (by omega)
      simp [collapseLoop, hd, this, collapseRuns_replacePairs]

/-- C9: the label stored by the `label` action equals, for every raw dialog
string, the normalization the claim describes (strip leading and trailing
whitespace, replace every tab and line break with a space, collapse every run
of consecutive spaces to one space); in particular the documented example
input maps to "hello world". -/
theorem c9_label_normalization :
    (∀ raw : String, storedLabel raw = specNormalize raw) ∧
    storedLabel "  hello   world\n" = "hello world" := by
  constructor
  · intro raw
    exact congrArg String.mk (collapseLoop_eq_collapseRuns _ _ (Nat.le_refl _))
  · decide

/-! ## Deduplication lemmas for merge-insert -/

theorem dedupGo_subset : ∀ (seen : List (String × Nat)) (l : List Row) (r : Row),
    r ∈ dedupGo seen l → r ∈ l ∧ keyOf r ∉ seen := by
  intro seen l
  induction l generalizing seen with
  | nil => intro r hr; simp [dedupGo] at hr
  | cons a rest ih =>
    intro r hr
    by_cases ha : keyOf a ∈ seen
    · rw [dedupGo, if_pos ha] at hr
      obtain ⟨h1, h2⟩ := ih seen r hr
      exact ⟨List.mem_cons_of_mem a h1, h2⟩
    · rw [dedupGo, if_neg ha] at hr
      rcases List.mem_cons.mp hr with h | h
      · subst h; exact ⟨List.mem_cons_self r rest, ha⟩
      · obtain ⟨h1, h2⟩ := ih (keyOf a :: seen) r h
        exact ⟨List.mem_cons_of_mem a h1, fun hc => h2 (List.mem_cons_of_mem _ hc)⟩

theorem mem_keysAfter_left : ∀ (seen : List (String × Nat)) (l : List Row)
    (k : String × Nat), k ∈ seen → k ∈ keysAfter seen l := by
  intro seen l
  induction l generalizing seen with
  | nil => intro k hk; exact hk
  | cons a rest ih =>
    intro k hk
    rw [keysAfter, List.foldl_cons]
    by_cases ha : keyOf a ∈ seen
    · rw [if_pos ha]; exact ih seen k hk
    · rw [if_neg ha]; exact ih (keyOf a :: seen) k (List.mem_cons_of_mem _ hk)

theorem mem_keysAfter_of_mem : ∀ (seen : List (String × Nat)) (l : List Row)
    (r : Row), r ∈ l → keyOf r ∈ keysAfter seen l := by
  intro seen l
  induction l generalizing seen with
  | nil => intro r hr; simp at hr
  | cons a rest ih =>
    intro r hr
    rw [keysAfter, List.foldl_cons]
    rcases List.mem_cons.mp hr with h | h
    · subst h
      by_cases ha : keyOf r ∈ seen
      · rw [if_pos ha]
        exact mem_keysAfter_left seen rest _ ha
      · rw [if_neg ha]
        exact mem_keysAfter_left (keyOf r :: seen) rest _ (List.mem_cons_self _ _)
    · by_cases ha : keyOf a ∈ seen
      · rw [if_pos ha]; exact ih seen r h
      · rw [if_neg ha]; exact ih (keyOf a :: seen) r h

theorem keysAfter_cons (seen : List (String × Nat)) (a : Row) (rest : List Row) :
    keysAfter seen (a :: rest) =
      keysAfter (if keyOf a ∈ seen then seen else keyOf a :: seen) rest := rfl

theorem dedupGo_append : ∀ (seen : List (String × Nat)) (l0 l1 : List Row),
    dedupGo seen (l0 ++ l1) = dedupGo seen l0 ++ dedupGo (keysAfter seen l0) l1 := by
  intro seen l0
  induction l0 generalizing seen with
  | nil => intro l1; rfl
  | cons a rest ih =>
    intro l1
    by_cases ha : keyOf a ∈ seen
    · rw [List.cons_append, dedupGo, if_pos ha, dedupGo, if_pos ha, ih seen l1,
        keysAfter_cons, if_pos ha]
    · rw [List.cons_append, dedupGo, if_neg ha, dedupGo, if_neg ha,
        ih (keyOf a :: seen) l1, keysAfter_cons, if_neg ha]
      rfl

theorem dedupGo_keeps : ∀ (seen : List (String × Nat)) (l0 l1 : List Row),
    (∀ r ∈ l0, keyOf r ∉ seen) → (l0.map keyOf).Nodup →
    ∀ r ∈ l0, r ∈ dedupGo seen (l0 ++ l1) := by
  intro seen l0
  induction l0 generalizing seen with
  | nil => intro l1 _ _ r hr; simp at hr
  | cons a rest ih =>
    intro l1 hseen hnd r hr
    have ha : keyOf a ∉ seen := hseen a (List.mem_cons_self _ _)
    rw [List.cons_append, dedupGo, if_neg ha]
    rcases List.mem_cons.mp hr with h | h
    · subst h; exact List.mem_cons_self _ _
    · refine List.mem_cons_of_mem a (ih (keyOf a :: seen) l1 ?_ ?_ r h)
      · intro r2 hr2
        simp only [List.mem_cons, not_or]
        constructor
        · intro hc
          have : keyOf a ∈ rest.map keyOf := hc ▸ List.mem_map_of_mem keyOf hr2
          exact (List.nodup_cons.mp hnd).1 this
        · exact hseen r2 (List.mem_cons_of_mem a hr2)
      · exact (List.nodup_cons.mp hnd).2

theorem findKey_dedupGo : ∀ (seen : List (String × Nat)) (l : List Row)
    (k : String × Nat), k ∉ seen → findKey k (dedupGo seen l) = findKey k l := by
  intro seen l
  induction l generalizing seen with
  | nil => intro k _; rfl
  | cons a rest ih =>
    intro k hk
    by_cases ha : keyOf a ∈ seen
    · rw [dedupGo, if_pos ha, ih seen k hk]
      have hbeq : (keyOf a == k) = false := by
        refine beq_eq_false_iff_ne.mpr (fun hc => hk (hc ▸ ha))
      simp [findKey, List.find?_cons, hbeq]
    · rw [dedupGo, if_neg ha]
      cases hbeq : keyOf a == k with
      | true => simp [findKey, List.find?_cons, hbeq]
      | false =>
        have hk2 : k ∉ keyOf a :: seen := by
          simp only [List.mem_cons, not_or]
          exact ⟨fun hc => by simp [hc.symm] at hbeq, hk⟩
        simp only [findKey, List.find?_cons, hbeq]
        exact ih (keyOf a :: seen) k hk2

theorem findKey_append_left : ∀ (l0 l1 : List Row) (k : String × Nat),
    k ∈ l0.map keyOf → findKey k (l0 ++ l1) = findKey k l0 := by
  intro l0
  induction l0 with
  | nil => intro l1 k hk; simp at hk
  | cons a rest ih =>
    intro l1 k hk
    rw [List.map_cons] at hk
    cases hbeq : keyOf a == k with
    | true => simp [findKey, List.find?_cons, hbeq]
    | false =>
      have hmem : k ∈ rest.map keyOf := by
        rcases List.mem_cons.mp hk with h | h
        · rw [h] at hbeq; simp at hbeq
        · exact h
      simp only [List.cons_append, findKey, List.find?_cons, hbeq]
      exact ih l1 k hmem

theorem exists_key_in_dedupGo : ∀ (seen : List (String × Nat)) (l : List Row)
    (r : Row), r ∈ l → keyOf r ∉ seen →
    ∃ r2 ∈ dedupGo seen l, keyOf r2 = keyOf r := by
  intro seen l
  induction l generalizing seen with
  | nil => intro r hr; simp at hr
  | cons a rest ih =>
    intro r hr hseen
    by_cases ha : keyOf a ∈ seen
    · rw [dedupGo, if_pos ha]
      rcases List.mem_cons.mp hr with h | h
      · subst h; exact absurd ha hseen
      · exact ih seen r h hseen
    · rw [dedupGo, if_neg ha]
      rcases List.mem_cons.mp hr with h | h
      · exact ⟨a, List.mem_cons_self _ _, (congrArg keyOf h).symm⟩
      · by_cases hk : keyOf r = keyOf a
        · exact ⟨a, List.mem_cons_self _ _, hk.symm⟩
        · obtain ⟨r2, hr2, hk2⟩ := ih (keyOf a :: seen) r h
            (by simp only [List.mem_cons, not_or]; exact ⟨hk, hseen⟩)
          exact ⟨r2, List.mem_cons_of_mem a hr2, hk2⟩

theorem findKey_append_right (l0 l1 : List Row) (k : String × Nat)
    (hk : k ∉ l0.map keyOf) : findKey k (l0 ++ l1) = findKey k l1 := by
  rw [findKey, List.find?_append]
  have h0 : List.find? (fun r => keyOf r == k) l0 = none := by
    rw [List.find?_eq_none]
    intro r hr hc
    exact hk (List.mem_map.mpr ⟨r, hr, beq_iff_eq.mp hc⟩)
  rw [h0]
  rfl

/-! ## C4: merge-insert keeps existing rows and inserts new-keyed incoming rows -/

/-- C4: for every existing ledger whose keys are unique (the documented ledger
invariant) and every incoming batch, merge-insert keeps every existing row;
every row of the result is an existing row or an incoming row whose
`(recording_id, sequence_id)` key was not present; for a key already present
the row found in the result is exactly the one found in the existing ledger
(first-seen wins, so an existing label is never overwritten); and for a key
not present in the existing ledger the row found in the result is exactly the
one found in the incoming batch — in particular every incoming row with a
fresh key is inserted (represented in the result by a row with its key). -/
theorem c4_merge_insert (qc0 qc1 : List Row) (h : (qc0.map keyOf).Nodup) :
    (∀ r ∈ qc0, r ∈ mergeInsert qc0 qc1) ∧
    (∀ r ∈ mergeInsert qc0 qc1, r ∈ qc0 ∨ (r ∈ qc1 ∧ keyOf r ∉ qc0.map keyOf)) ∧
    (∀ k ∈ qc0.map keyOf, findKey k (mergeInsert qc0 qc1) = findKey k qc0) ∧
    (∀ k, k ∉ qc0.map keyOf →
      findKey k (mergeInsert qc0 qc1) = findKey k qc1) ∧
    (∀ r ∈ qc1, keyOf r ∉ qc0.map keyOf →
      ∃ r2 ∈ mergeInsert qc0 qc1, keyOf r2 = keyOf r) := by
  refine ⟨?_, ?_, ?_, ?_, ?_⟩
  · intro r hr
    exact dedupGo_keeps [] qc0 qc1 (by simp) h r hr
  · intro r hr
    rw [mergeInsert, dedupFirst, dedupGo_append] at hr
    rcases List.mem_append.mp hr with hr | hr
    · exact Or.inl (dedupGo_subset [] qc0 r hr).1
    · obtain ⟨h1, h2⟩ := dedupGo_subset (keysAfter [] qc0) qc1 r hr
      refine Or.inr ⟨h1, fun hc => ?_⟩
      obtain ⟨r0, hr0, hk0⟩ := List.mem_map.mp hc
      exact h2 (hk0 ▸ mem_keysAfter_of_mem [] qc0 r0 hr0)
  · intro k hk
    rw [mergeInsert, dedupFirst, findKey_dedupGo [] (qc0 ++ qc1) k (by simp),
      findKey_append_left qc0 qc1 k hk]
  · intro k hk
    rw [mergeInsert, dedupFirst, findKey_dedupGo [] (qc0 ++ qc1) k (by simp),
      findKey_append_right qc0 qc1 k hk]
  · intro r hr hk
    exact exists_key_in_dedupGo [] (qc0 ++ qc1) r
      (List.mem_append_right qc0 hr) (by simp)

/-- C4 witness: the theorem applied to the one-row ledger `[rowU]` and the
incoming batch `[rowL]`, whose keys are distinct: the existing row is kept,
its key still finds it, and the fresh-keyed incoming row is inserted (its key
finds it in the merge exactly as in the incoming batch). -/
theorem c4_merge_insert_witness :
    rowU ∈ mergeInsert [rowU] [rowL] ∧
    findKey (keyOf rowU) (mergeInsert [rowU] [rowL]) = findKey (keyOf rowU) [rowU] ∧
    findKey (keyOf rowL) (mergeInsert [rowU] [rowL]) = findKey (keyOf rowL) [rowL] :=
  ⟨(c4_merge_insert [rowU] [rowL] (by decide)).1 rowU (by simp),
   (c4_merge_insert [rowU] [rowL] (by decide)).2.2.1 (keyOf rowU) (by simp),
   (c4_merge_insert [rowU] [rowL] (by decide)).2.2.2.1 (keyOf rowL) (by decide)⟩

/-! ## C3: merge-insert is idempotent -/

theorem json2segments_name (folder : String) (segs : List Seg) :
    ∀ r ∈ json2segments folder segs, r.name = folder := by
  intro r hr
  obtain ⟨s, _, hs⟩ := List.mem_map.mp hr
  rw [← hs]

/-- C3: importing and merging the same segment-list file twice yields the same
persisted ledger as importing it once: a second `runImport` of the same
recording folder is the identity on the ledger produced by the first. -/
theorem c3_idempotent (qc0 : List Row) (folder : String) (segs : List Seg) :
    runImport (runImport qc0 folder segs) folder segs = runImport qc0 folder segs := by
  by_cases hseg : segs = []
  · subst hseg
    have hif : ∀ qc : List Row, importFolder qc folder [] = [] := by
      intro qc
      rw [importFolder]
      split <;> rfl
    rw [runImport, runImport, hif, hif]
    simp only [List.isEmpty_nil, if_true]
    exact sortLedger_idem qc0
  · by_cases hmem : folder ∈ qc0.map Row.name
    · have h1 : runImport qc0 folder segs = sortLedger qc0 := by
        rw [runImport, importFolder, if_pos hmem]
        rfl
      have hmem2 : folder ∈ (sortLedger qc0).map Row.name := by
        obtain ⟨r, hr, hn⟩ := List.mem_map.mp hmem
        exact List.mem_map.mpr ⟨r, (mem_sortLedger r qc0).mpr hr, hn⟩
      rw [h1, runImport, importFolder, if_pos hmem2]
      simp only [List.isEmpty_nil, if_true]
      exact sortLedger_idem qc0
    · obtain ⟨s, ss, rfl⟩ : ∃ s ss, segs = s :: ss := by
        cases segs with
        | nil => exact absurd rfl hseg
        | cons s ss => exact ⟨s, ss, rfl⟩
      have hfr : importFolder qc0 folder (s :: ss) = json2segments folder (s :: ss) := by
        rw [importFolder, if_neg hmem]
      have hne : (json2segments folder (s :: ss)).isEmpty = false := by
        simp [json2segments]
      have h1 : runImport qc0 folder (s :: ss) =
          sortLedger (mergeInsert qc0 (json2segments folder (s :: ss))) := by
        rw [runImport, hfr]
        simp only [hne, Bool.false_eq_true, if_false]
      have hr0 : Row.mk folder s.id (uidString folder s.id) s.text "" s.conf ∈
          qc0 ++ json2segments folder (s :: ss) := by
        refine List.mem_append_right qc0 ?_
        exact List.mem_map.mpr ⟨s, List.mem_cons_self _ _, rfl⟩
      obtain ⟨r2, hr2, hk2⟩ :=
        exists_key_in_dedupGo [] (qc0 ++ json2segments folder (s :: ss)) _ hr0 (by simp)
      have hname2 : r2.name = folder := congrArg Prod.fst hk2
      have hmem2 : folder ∈ (runImport qc0 folder (s :: ss)).map Row.name := by
        rw [h1]
        refine List.mem_map.mpr ⟨r2, ?_, hname2⟩
        exact (mem_sortLedger r2 _).mpr hr2
      rw [runImport, importFolder, if_pos hmem2]
      simp only [List.isEmpty_nil, if_true]
      rw [h1, sortLedger_idem, ← h1]

/-! ## File-system lemmas for the clip cache -/

theorem fsGet_set_self (fs : Fs) (p c : String) : fsGet (fsSet fs p c) p = some c := by
  simp [fsGet, fsSet, List.find?_cons]

theorem find?_filter_ne (fs : Fs) (p q : String) (h : q ≠ p) :
    List.find? (fun e => e.fst == q) (fs.filter (fun e => !(e.fst == p))) =
      List.find? (fun e => e.fst == q) fs := by
  induction fs with
  | nil => rfl
  | cons e rest ih =>
    by_cases he : e.fst = p
    · have h1 : (e.fst == p) = true := beq_iff_eq.mpr he
      have h2 : (e.fst == q) = false :=
        beq_eq_false_iff_ne.mpr (fun hc => h (hc.symm.trans he))
      rw [List.filter_cons_of_neg (by simp [h1]), List.find?_cons, h2, ih]
    · have h1 : (e.fst == p) = false := beq_eq_false_iff_ne.mpr he
      rw [List.filter_cons_of_pos (by simp [h1]), List.find?_cons, List.find?_cons]
      cases hq : e.fst == q with
      | true => rfl
      | false => exact ih

theorem fsGet_set_ne (fs : Fs) (p c q : String) (h : q ≠ p) :
    fsGet (fsSet fs p c) q = fsGet fs q := by
  have h2 : (p == q) = false := beq_eq_false_iff_ne.mpr (fun hc => h hc.symm)
  simp only [fsGet, fsSet, List.find?_cons, h2, Bool.false_eq_true, if_false]
  rw [find?_filter_ne fs p q h]

theorem fsGet_erase_self (fs : Fs) (p : String) : fsGet (fsErase fs p) p = none := by
  rw [fsGet, fsErase, Option.map_eq_none', List.find?_eq_none]
  intro e he hc
  have h2 := (List.mem_filter.mp he).2
  rw [hc] at h2
  simp at h2

theorem fsGet_erase_ne (fs : Fs) (p q : String) (h : q ≠ p) :
    fsGet (fsErase fs p) q = fsGet fs q := by
  rw [fsGet, fsErase, find?_filter_ne fs p q h]
  rfl

theorem fsSet_keys_nodup (fs : Fs) (p c : String)
    (h : (fs.map Prod.fst).Nodup) : ((fsSet fs p c).map Prod.fst).Nodup := by
  rw [fsSet, List.map_cons]
  refine List.nodup_cons.mpr ⟨?_, ?_⟩
  · intro hc
    obtain ⟨e, he, hfst⟩ := List.mem_map.mp hc
    have h2 := (List.mem_filter.mp he).2
    rw [hfst] at h2
    simp at h2
  · exact ((List.filter_sublist fs).map Prod.fst).nodup h

/-! ## C5: clip commit is check-then-move, never overwrites, one file per uid -/

/-- C5: committing a clip first checks whether the cache file named by the uid
exists.  If it does, nothing changes (the committed clip is never overwritten
and the scratch clip is not moved); if it does not, the scratch clip is moved
there (the uid path now holds the scratch content, the scratch path is gone);
and the file system keeps at most one physical file per path, so at most one
clip file exists per uid. -/
theorem c5_commit (fs : Fs) (t u : String) (hne : t ≠ u)
    (hkeys : (fs.map Prod.fst).Nodup) :
    (∀ c, fsGet fs u = some c → commitClip fs t u = fs) ∧
    (fsGet fs u = none →
      fsGet (commitClip fs t u) u = fsGet fs t ∧
      fsGet (commitClip fs t u) t = none) ∧
    ((commitClip fs t u).map Prod.fst).Nodup := by
  refine ⟨?_, ?_, ?_⟩
  · intro c hc
    rw [commitClip, if_pos (by simp [hc])]
  · intro hu
    rw [commitClip, if_neg (by simp [hu]), fsRename]
    cases hat : fsGet fs t with
    | none => exact ⟨hu, hat⟩
    | some c =>
      constructor
      · rw [fsGet_set_self]
      · rw [fsGet_set_ne _ u c t hne]
        exact fsGet_erase_self fs t
  · rw [commitClip]
    split
    · exact hkeys
    · rw [fsRename]
      cases hat : fsGet fs t with
      | none => exact hkeys
      | some c =>
        refine fsSet_keys_nodup _ u c ?_
        exact ((List.filter_sublist fs).map Prod.fst).nodup hkeys

/-- C5 witness: committing the scratch clip into an empty-cache file system
moves it to the uid path, and the key list stays duplicate-free. -/
theorem c5_commit_witness :
    fsGet (commitClip fsTmp "temp_clip.mp3" "u1.mp3") "u1.mp3" =
      fsGet fsTmp "temp_clip.mp3" ∧
    ((commitClip fsTmp "temp_clip.mp3" "u1.mp3").map Prod.fst).Nodup :=
  ⟨((c5_commit fsTmp "temp_clip.mp3" "u1.mp3" (by decide) (by decide)).2.1
      (by decide)).1,
   (c5_commit fsTmp "temp_clip.mp3" "u1.mp3" (by decide) (by decide)).2.2⟩

/-! ## C6: traversal order and exclusion of labeled rows -/

theorem dropWhile_head_false : ∀ (l : List Char) (a : Char) (t : List Char),
    l.dropWhile isWs = a :: t → isWs a = false := by
  intro l
  induction l with
  | nil => intro a t h; simp [List.dropWhile] at h
  | cons c rest ih =>
    intro a t h
    rw [List.dropWhile_cons] at h
    by_cases hc : isWs c
    · rw [if_pos hc] at h
      exact ih a t h
    · rw [if_neg hc] at h
      obtain ⟨h1, _⟩ := List.cons.injEq c rest a t ▸ h
      exact h1 ▸ Bool.of_not_eq_true hc

theorem pyStrip_nil (l : List Char) (h : pyStrip (pyStrip l) = []) :
    pyStrip l = [] := by
  by_contra hne
  have hTw : ((l.dropWhile isWs).reverse.dropWhile isWs) ≠ [] := by
    intro hc
    exact hne (by rw [pyStrip, hc, List.reverse_nil])
  obtain ⟨a, t, hat⟩ : ∃ a t, (l.dropWhile isWs).reverse.dropWhile isWs = a :: t := by
    cases hx : (l.dropWhile isWs).reverse.dropWhile isWs with
    | nil => exact absurd hx hTw
    | cons a t => exact ⟨a, t, rfl⟩
  have ha : isWs a = false := dropWhile_head_false _ a t hat
  have hmem : a ∈ pyStrip l := by
    rw [pyStrip, hat]
    exact List.mem_reverse.mpr (List.mem_cons_self a t)
  have h1 : (((pyStrip l).dropWhile isWs).reverse).dropWhile isWs = [] :=
    List.reverse_eq_nil_iff.mp h
  cases hTP : (pyStrip l).dropWhile isWs with
  | nil =>
    have hall := List.dropWhile_eq_nil_iff.mp hTP
    rw [hall a hmem] at ha
    simp at ha
  | cons b tb =>
    have hb : isWs b = false := dropWhile_head_false _ b tb hTP
    have hall := List.dropWhile_eq_nil_iff.mp h1
    have hbmem : b ∈ ((pyStrip l).dropWhile isWs).reverse := by
      rw [hTP]
      exact List.mem_reverse.mpr (List.mem_cons_self b tb)
    rw [hall b hbmem] at hb
    simp at hb

theorem stripStr_nil (s : String) (h : stripStr (stripStr s) = "") :
    stripStr s = "" := by
  have hdata : pyStrip (pyStrip s.data) = [] := by
    have := congrArg String.data h
    exact this
  exact congrArg String.mk (pyStrip_nil s.data hdata)

/-- C6: with revisit off, the sequence of rows presented for review is sorted
in non-decreasing confidence, and a row whose label is non-empty at the start
of traversal (after the startup strip) is excluded from the presented sequence
entirely. -/
theorem c6_traversal (rows : List Row) (audioOk : Row → Bool) :
    List.Pairwise (fun a b : Row => a.conf ≤ b.conf)
      (traversal false audioOk rows) ∧
    ∀ r ∈ rows, stripStr r.label ≠ "" →
      stripRow r ∉ traversal false audioOk rows := by
  constructor
  · refine List.Pairwise.sublist (List.filter_sublist _) ?_
    refine (List.sorted_mergeSort confLe_trans confLe_total (sessionRows rows)).imp ?_
    intro a b hab
    simpa [confLe, decide_eq_true_eq] using hab
  · intro r _ hlab hmem
    obtain ⟨_, hpred⟩ := List.mem_filter.mp hmem
    simp only [Bool.false_or, Bool.and_eq_true, beq_iff_eq] at hpred
    have : stripStr (stripStr r.label) = "" := hpred.1
    exact hlab (stripStr_nil r.label this)

/-- C6 witness: the theorem applied to a two-row ledger; the labeled row is
excluded from the presented sequence. -/
theorem c6_traversal_witness :
    stripStr rowL.label ≠ "" ∧
    stripRow rowL ∉ traversal false (fun _ => true) [rowU, rowL] :=
  ⟨by decide,
   (c6_traversal [rowU, rowL] (fun _ => true)).2 rowL (by simp) (by decide)⟩

/-! ## C8 and C10: action token dispatch -/

theorem isPre_head (c : Char) (cs : List Char) (d : Char) (ds : List Char)
    (h : isPre (c :: cs) (d :: ds) = true) : c = d := by
  simp only [isPre, Bool.and_eq_true, beq_iff_eq] at h
  exact h.1

theorem data_ne_nil (s : String) (h : s ≠ "") : s.data ≠ [] := by
  intro hc
  apply h
  cases s with
  | mk l =>
    have hl : l = [] := hc
    rw [hl]

/-- C8 counterexample: the reviewer token "s" is an ambiguous prefix (it
begins both `save` and `skip`), yet the dispatch of qc.py resolves it to
`save` — the first match in the elif chain — instead of rejecting it as
unrecognized, refuting the claim. -/
theorem c8_counterexample :
    resolveAction "s" = ActR.save ∧ ActR.save ≠ ActR.unrecognized := by decide

/-- C8 amended: action tokens are matched case-insensitively by prefix against
the vocabulary in the fixed order accept, replay, context, inaudible, label,
save, skip, quit of the elif chain: a token that is a prefix of exactly one
vocabulary word selects that word's action, but an ambiguous prefix silently
resolves to the first matching word in that order (so "s" selects `save`)
rather than being rejected as unrecognized. -/
theorem c8_amended (tok w : String) (hw : w ∈ vocab8)
    (h1 : isPre (lowerStr tok).data w.data = true)
    (h2 : ∀ v ∈ vocab8, isPre (lowerStr tok).data v.data = true → v = w) :
    resolveAction tok = actOf w ∧ resolveAction "s" = ActR.save := by
  refine ⟨?_, by decide⟩
  have hanil : (lowerStr tok).data ≠ [] := by
    intro hc
    have h2a := h2 "accept" (by decide) (by rw [hc]; rfl)
    have h2r := h2 "replay" (by decide) (by rw [hc]; rfl)
    exact absurd (h2a.trans h2r.symm) (by decide)
  have hemp : (lowerStr tok).data.isEmpty = false := by
    cases hx : (lowerStr tok).data.isEmpty with
    | false => rfl
    | true => exact absurd (List.isEmpty_iff.mp hx) hanil
  have hne : ∀ v ∈ vocab8, v ≠ w → isPre (lowerStr tok).data v.data = false := by
    intro v hv hvw
    cases hx : isPre (lowerStr tok).data v.data with
    | false => rfl
    | true => exact absurd (h2 v hv hx) hvw
  simp only [vocab8, List.mem_cons, List.not_mem_nil, or_false] at hw
  rcases hw with rfl | rfl | rfl | rfl | rfl | rfl | rfl | rfl
  · simp only [resolveAction, hemp, h1, Bool.true_or, Bool.or_true, if_true]
    decide
  · simp only [resolveAction, hemp,
      hne "accept" (by decide) (by decide), h1,
      Bool.false_or, if_true, Bool.false_eq_true, if_false]
    decide
  · simp only [resolveAction, hemp,
      hne "accept" (by decide) (by decide),
      hne "replay" (by decide) (by decide), h1,
      Bool.false_or, if_true, Bool.false_eq_true, if_false]
    decide
  · simp only [resolveAction, hemp,
      hne "accept" (by decide) (by decide),
      hne "replay" (by decide) (by decide),
      hne "context" (by decide) (by decide), h1,
      Bool.false_or, if_true, Bool.false_eq_true, if_false]
    decide
  · simp only [resolveAction, hemp,
      hne "accept" (by decide) (by decide),
      hne "replay" (by decide) (by decide),
      hne "context" (by decide) (by decide),
      hne "inaudible" (by decide) (by decide), h1,
      Bool.false_or, if_true, Bool.false_eq_true, if_false]
    decide
  · simp only [resolveAction, hemp,
      hne "accept" (by decide) (by decide),
      hne "replay" (by decide) (by decide),
      hne "context" (by decide) (by decide),
      hne "inaudible" (by decide) (by decide),
      hne "label" (by decide) (by decide), h1,
      Bool.false_or, if_true, Bool.false_eq_true, if_false]
    decide
  · simp only [resolveAction, hemp,
      hne "accept" (by decide) (by decide),
      hne "replay" (by decide) (by decide),
      hne "context" (by decide) (by decide),
      hne "inaudible" (by decide) (by decide),
      hne "label" (by decide) (by decide),
      hne "save" (by decide) (by decide), h1,
      Bool.false_or, if_true, Bool.false_eq_true, if_false]
    decide
  · simp only [resolveAction, hemp,
      hne "accept" (by decide) (by decide),
      hne "replay" (by decide) (by decide),
      hne "context" (by decide) (by decide),
      hne "inaudible" (by decide) (by decide),
      hne "label" (by decide) (by decide),
      hne "save" (by decide) (by decide),
      hne "skip" (by decide) (by decide), h1,
      Bool.false_or, Bool.true_or, if_true, Bool.false_eq_true, if_false]
    decide

/-- C8 witness: the theorem applied to the unambiguous token "i" (a prefix of
`inaudible` only). -/
theorem c8_amended_witness :
    resolveAction "i" = actOf "inaudible" ∧ resolveAction "s" = ActR.save :=
  c8_amended "i" "inaudible" (by decide) (by decide) (by decide)

/-- C10: any non-empty case-insensitive prefix of the word "exit" falls
through every documented branch of the elif chain, lands in the shared
`quit`-or-`exit` branch, and therefore ends the action loop and then the
whole traversal exactly like `quit`, leaving the current row and the file
system untouched. -/
theorem c10_exit_quits (tok : String) (row : Row) (fs : Fs)
    (tp up dialog : String) (rest : List String)
    (h0 : tok ≠ "") (h : isPre (lowerStr tok).data "exit".data = true) :
    resolveAction tok = ActR.quit ∧
      actionLoop tp up dialog row fs (tok :: rest) =
        LoopResult.finished row fs true := by
  have hd : tok.data ≠ [] := data_ne_nil tok h0
  have hne : (lowerStr tok).data ≠ [] := by
    rw [lowerStr]
    simpa using hd
  obtain ⟨c, cs, hcs⟩ : ∃ c cs, (lowerStr tok).data = c :: cs := by
    cases hx : (lowerStr tok).data with
    | nil => exact absurd hx hne
    | cons c cs => exact ⟨c, cs, rfl⟩
  have hexit : "exit".data = 'e' :: "xit".data := rfl
  rw [hcs, hexit] at h
  have hc : c = 'e' := isPre_head c cs 'e' _ h
  subst hc
  have hfalse : ∀ (w : List Char) (d : Char) (ds : List Char), w = d :: ds →
      d ≠ 'e' → isPre ('e' :: cs) w = false := by
    intro w d ds hw hne2
    subst hw
    cases hx : isPre ('e' :: cs) (d :: ds) with
    | false => rfl
    | true => exact absurd (isPre_head _ _ _ _ hx).symm hne2
  have hres : resolveAction tok = ActR.quit := by
    simp only [resolveAction, hcs, List.isEmpty_cons,
      hfalse "accept".data 'a' "ccept".data rfl (by decide),
      hfalse "replay".data 'r' "eplay".data rfl (by decide),
      hfalse "context".data 'c' "ontext".data rfl (by decide),
      hfalse "inaudible".data 'i' "naudible".data rfl (by decide),
      hfalse "label".data 'l' "abel".data rfl (by decide),
      hfalse "save".data 's' "ave".data rfl (by decide),
      hfalse "skip".data 's' "kip".data rfl (by decide),
      hfalse "quit".data 'q' "uit".data rfl (by decide),
      hexit, h,
      Bool.false_or, Bool.or_true, if_true, Bool.false_eq_true, if_false]
  exact ⟨hres, by simp [actionLoop, hres]⟩

/-- C10 witness: the theorem applied to the token "e" on a concrete row. -/
theorem c10_exit_quits_witness :
    resolveAction "e" = ActR.quit ∧
      actionLoop "t.mp3" "u.mp3" "dialog" rowU fsTmp ["e"] =
        LoopResult.finished rowU fsTmp true :=
  c10_exit_quits "e" rowU fsTmp "t.mp3" "u.mp3" "dialog" [] (by decide) (by decide)

/-! ## C7: uid determinism and collision-freeness -/

theorem bytesToNat_lt : ∀ l : List Nat, bytesToNat l < 256 ^ l.length := by
  intro l
  induction l with
  | nil => simp [bytesToNat]
  | cons b rest ih =>
    rw [bytesToNat, List.length_cons, pow_succ]
    have hb : b % 256 < 256 := Nat.mod_lt _ (by norm_num)
    calc b % 256 * 256 ^ rest.length + bytesToNat rest
        ≤ 255 * 256 ^ rest.length + bytesToNat rest :=
          Nat.add_le_add_right (Nat.mul_le_mul_right _ (by omega)) _
      _ < 255 * 256 ^ rest.length + 256 ^ rest.length :=
          Nat.add_lt_add_left ih _
      _ = 256 ^ rest.length * 256 := by ring

theorem sha1_length (msg : List Nat) : (sha1 msg).length = 20 := by
  simp [sha1, wordBytes]

theorem setByte_length (l : List Nat) (i v : Nat) (h : i < l.length) :
    (setByte l i v).length = l.length := by
  simp only [setByte, List.length_append, List.length_take, List.length_drop,
    List.length_cons, List.length_nil]
  omega

theorem uuid5Bytes_length (nb : List Nat) : (uuid5Bytes nb).length = 16 := by
  have h0 : ((sha1 (nsDNS ++ nb)).take 16).length = 16 := by
    rw [List.length_take, sha1_length]
    rfl
  rw [uuid5Bytes]
  have h1 : (setByte ((sha1 (nsDNS ++ nb)).take 16) 6
      (((sha1 (nsDNS ++ nb)).take 16).getD 6 0 % 16 + 80)).length = 16 := by
    rw [setByte_length _ _ _ (by rw [h0]; omega), h0]
  rw [setByte_length _ _ _ (by rw [h1]; omega), h1]

theorem bytesToNat_inj : ∀ (l1 l2 : List Nat), l1.length = l2.length →
    bytesToNat l1 = bytesToNat l2 →
    l1.map (fun b => b % 256) = l2.map (fun b => b % 256) := by
  intro l1
  induction l1 with
  | nil =>
    intro l2 hlen _
    rw [(List.length_eq_zero.mp hlen.symm : l2 = [])]
  | cons b rest ih =>
    intro l2 hlen hval
    cases l2 with
    | nil => simp at hlen
    | cons b2 rest2 =>
      simp only [List.length_cons] at hlen
      have hlen2 : rest.length = rest2.length := by omega
      rw [bytesToNat, bytesToNat, hlen2] at hval
      have hXpos : 0 < 256 ^ rest2.length := pow_pos (by norm_num) _
      have hr1 : bytesToNat rest < 256 ^ rest2.length := by
        rw [← hlen2]; exact bytesToNat_lt rest
      have hr2 : bytesToNat rest2 < 256 ^ rest2.length := bytesToNat_lt rest2
      have hdiv1 : (b % 256 * 256 ^ rest2.length + bytesToNat rest) /
          256 ^ rest2.length = b % 256 := by
        rw [Nat.mul_comm, Nat.mul_add_div hXpos, Nat.div_eq_of_lt hr1]
        omega
      have hdiv2 : (b2 % 256 * 256 ^ rest2.length + bytesToNat rest2) /
          256 ^ rest2.length = b2 % 256 := by
        rw [Nat.mul_comm, Nat.mul_add_div hXpos, Nat.div_eq_of_lt hr2]
        omega
      have hb : b % 256 = b2 % 256 := by rw [← hdiv1, hval, hdiv2]
      have hrest : bytesToNat rest = bytesToNat rest2 := by
        rw [hb] at hval
        exact Nat.add_left_cancel hval
      simp only [List.map_cons, hb, ih rest2 hlen2 hrest]

theorem hexByte_mod (b : Nat) : hexByte (b % 256) = hexByte b := by
  rw [hexByte, hexByte]
  have h1 : b % 256 / 16 % 16 = b / 16 % 16 := by omega
  have h2 : b % 256 % 16 = b % 16 := by omega
  rw [h1, h2]

theorem uuidFormat_congr (l1 l2 : List Nat)
    (h : l1.map (fun b => b % 256) = l2.map (fun b => b % 256)) :
    uuidFormat l1 = uuidFormat l2 := by
  have e1 : l1.map hexByte = (l1.map (fun b => b % 256)).map hexByte := by
    rw [List.map_map]
    exact List.map_congr_left (fun b _ => (hexByte_mod b).symm)
  have e2 : l2.map hexByte = (l2.map (fun b => b % 256)).map hexByte := by
    rw [List.map_map]
    exact List.map_congr_left (fun b _ => (hexByte_mod b).symm)
  have hmap : l1.map hexByte = l2.map hexByte := by rw [e1, e2, h]
  rw [uuidFormat, uuidFormat, hmap]

/-- C7 counterexample: the uid, as the textual form of a 128-bit uuid5 value,
cannot be collision-free over all `(recording_id, sequence_id)` pairs: by the
pigeonhole principle two distinct pairs receive the same uid string, refuting
absolute collision-freeness. -/
theorem c7_counterexample :
    ∃ p q : String × Nat, p ≠ q ∧ uidString p.1 p.2 = uidString q.1 q.2 := by
  have hbound : ∀ n : Nat, uidNat "a" n < 256 ^ 16 := by
    intro n
    have h1 := bytesToNat_lt (uuid5Bytes (utf8Bytes (encodeName "a" n)))
    rw [uuid5Bytes_length] at h1
    exact h1
  obtain ⟨n, m, hnm, heq⟩ := Finite.exists_ne_map_eq_of_infinite
    (fun n : Nat => (⟨uidNat "a" n, hbound n⟩ : Fin (256 ^ 16)))
  refine ⟨("a", n), ("a", m), ?_, ?_⟩
  · exact fun hc => hnm (congrArg Prod.snd hc)
  · have hval : uidNat "a" n = uidNat "a" m := by
      simpa only [Fin.mk.injEq] using heq
    have hlen : (uuid5Bytes (utf8Bytes (encodeName "a" n))).length =
        (uuid5Bytes (utf8Bytes (encodeName "a" m))).length := by
      rw [uuid5Bytes_length, uuid5Bytes_length]
    exact uuidFormat_congr _ _ (bytesToNat_inj _ _ hlen hval)

theorem natDigitsRev_eq_digits : ∀ (fuel n : Nat), n ≤ fuel →
    natDigitsRev fuel n = Nat.digits 10 n := by
  intro fuel
  induction fuel with
  | zero =>
    intro n h
    have h0 : n = 0 := Nat.le_zero.mp h
    subst h0
    simp [natDigitsRev]
  | succ f ih =>
    intro n h
    by_cases h0 : n = 0
    · subst h0
      simp [natDigitsRev]
    · rw [natDigitsRev, if_neg h0,
        Nat.digits_def' (b := 10) (by norm_num) (Nat.pos_of_ne_zero h0),
        ih (n / 10) ?_]
      have := Nat.div_lt_self (Nat.pos_of_ne_zero h0) (show 1 < 10 by norm_num)
      omega

theorem natDigitsRev_lt : ∀ (fuel n d : Nat), d ∈ natDigitsRev fuel n → d < 10 := by
  intro fuel
  induction fuel with
  | zero => intro n d h; simp [natDigitsRev] at h
  | succ f ih =>
    intro n d h
    rw [natDigitsRev] at h
    by_cases h0 : n = 0
    · rw [if_pos h0] at h; simp at h
    · rw [if_neg h0] at h
      rcases List.mem_cons.mp h with h | h
      · subst h; exact Nat.mod_lt _ (by norm_num)
      · exact ih (n / 10) d h

theorem digitCh_inj : ∀ a < 10, ∀ b < 10, digitCh a = digitCh b → a = b := by decide

theorem digitCh_ne_space : ∀ d < 10, digitCh d ≠ ' ' := by decide

theorem mapDigits_inj : ∀ (l1 l2 : List Nat), (∀ x ∈ l1, x < 10) →
    (∀ x ∈ l2, x < 10) → l1.map digitCh = l2.map digitCh → l1 = l2 := by
  intro l1
  induction l1 with
  | nil =>
    intro l2 _ _ h
    cases l2 with
    | nil => rfl
    | cons b t => simp at h
  | cons a t ih =>
    intro l2 h1 h2 h
    cases l2 with
    | nil => simp at h
    | cons b u =>
      simp only [List.map_cons, List.cons.injEq] at h
      obtain ⟨hab, htu⟩ := h
      have ha := h1 a (List.mem_cons_self a t)
      have hb := h2 b (List.mem_cons_self b u)
      have : a = b := digitCh_inj a ha b hb hab
      subst this
      rw [ih u (fun x hx => h1 x (List.mem_cons_of_mem a hx))
        (fun x hx => h2 x (List.mem_cons_of_mem a hx)) htu]

theorem str_ext (s t : String) (h : s.data = t.data) : s = t := by
  cases s; cases t; exact congrArg String.mk h

theorem natToString_ne_zero_case (m : Nat) (hm : m ≠ 0)
    (h : ('0' : Char) :: [] = ((natDigitsRev m m).reverse.map digitCh)) : False := by
  rw [natDigitsRev_eq_digits m m (Nat.le_refl m)] at h
  have hlen : (Nat.digits 10 m).length = 1 := by
    have := congrArg List.length h
    simpa using this.symm
  obtain ⟨d, hd⟩ : ∃ d, Nat.digits 10 m = [d] := by
    cases hx : Nat.digits 10 m with
    | nil => rw [hx] at hlen; simp at hlen
    | cons d u =>
      rw [hx] at hlen
      simp only [List.length_cons] at hlen
      have hu : u = [] := List.length_eq_zero.mp (by omega)
      exact ⟨d, by rw [hu]⟩
  rw [hd] at h
  simp only [List.reverse_cons, List.reverse_nil, List.nil_append, List.map_cons,
    List.map_nil, List.cons.injEq] at h
  have hdm : d ∈ Nat.digits 10 m := by
    rw [hd]
    exact List.mem_cons_self d []
  have hd10 : d < 10 := Nat.digits_lt_base (by norm_num) hdm
  have hd0 : d = 0 := digitCh_inj d hd10 0 (by norm_num) h.1.symm
  have hofs := Nat.ofDigits_digits 10 m
  rw [hd, Nat.ofDigits_cons, Nat.ofDigits_nil] at hofs
  apply hm
  omega

theorem natToString_inj (n m : Nat) (h : natToString n = natToString m) :
    n = m := by
  have hdata := congrArg String.data h
  rw [natToString, natToString] at hdata
  by_cases h0 : n = 0 <;> by_cases h1 : m = 0
  · rw [h0, h1]
  · rw [if_pos h0, if_neg h1] at hdata
    exact absurd (natToString_ne_zero_case m h1 hdata) not_false
  · rw [if_neg h0, if_pos h1] at hdata
    exact absurd (natToString_ne_zero_case n h0 hdata.symm) not_false
  · rw [if_neg h0, if_neg h1] at hdata
    have hmap : (natDigitsRev n n).reverse.map digitCh =
        (natDigitsRev m m).reverse.map digitCh := hdata
    have hn := natDigitsRev_eq_digits n n (Nat.le_refl n)
    have hm := natDigitsRev_eq_digits m m (Nat.le_refl m)
    rw [hn, hm] at hmap
    have hlists : (Nat.digits 10 n).reverse = (Nat.digits 10 m).reverse := by
      refine mapDigits_inj _ _ ?_ ?_ hmap
      · intro x hx
        exact Nat.digits_lt_base (by norm_num) (List.mem_reverse.mp hx)
      · intro x hx
        exact Nat.digits_lt_base (by norm_num) (List.mem_reverse.mp hx)
    have : Nat.digits 10 n = Nat.digits 10 m := List.reverse_inj.mp hlists
    exact Nat.digits_inj_iff.mp this

theorem natToString_no_space (n : Nat) : (' ' : Char) ∉ (natToString n).data := by
  rw [natToString]
  by_cases h0 : n = 0
  · rw [if_pos h0]
    decide
  · rw [if_neg h0]
    intro hc
    obtain ⟨d, hd, hch⟩ := List.mem_map.mp hc
    have hd10 : d < 10 :=
      natDigitsRev_lt n n d (List.mem_reverse.mp hd)
    exact digitCh_ne_space d hd10 hch

theorem splitFirst : ∀ (x1 : List Char) (c : Char) (y1 x2 y2 : List Char),
    c ∉ x1 → c ∉ x2 → x1 ++ c :: y1 = x2 ++ c :: y2 → x1 = x2 ∧ y1 = y2 := by
  intro x1
  induction x1 with
  | nil =>
    intro c y1 x2 y2 _ hc2 heq
    cases x2 with
    | nil => simpa using heq
    | cons a t =>
      simp only [List.nil_append, List.cons_append, List.cons.injEq] at heq
      refine absurd ?_ hc2
      rw [heq.1]
      exact List.mem_cons_self a t
  | cons a t ih =>
    intro c y1 x2 y2 hc1 hc2 heq
    cases x2 with
    | nil =>
      simp only [List.nil_append, List.cons_append, List.cons.injEq] at heq
      refine absurd ?_ hc1
      rw [← heq.1]
      exact List.mem_cons_self a t
    | cons b u =>
      simp only [List.cons_append, List.cons.injEq] at heq
      obtain ⟨hab, hrest⟩ := heq
      subst hab
      obtain ⟨hx, hy⟩ := ih c y1 u y2
        (fun hc => hc1 (List.mem_cons_of_mem a hc))
        (fun hc => hc2 (List.mem_cons_of_mem a hc)) hrest
      exact ⟨by rw [hx], hy⟩

theorem splitLast (a1 b1 a2 b2 : List Char) (c : Char)
    (h1 : c ∉ b1) (h2 : c ∉ b2)
    (heq : a1 ++ c :: b1 = a2 ++ c :: b2) : a1 = a2 ∧ b1 = b2 := by
  have hrev : b1.reverse ++ c :: a1.reverse = b2.reverse ++ c :: a2.reverse := by
    have := congrArg List.reverse heq
    simpa [List.reverse_append, List.append_assoc] using this
  obtain ⟨hb, ha⟩ := splitFirst b1.reverse c a1.reverse b2.reverse a2.reverse
    (fun hc => h1 (List.mem_reverse.mp hc))
    (fun hc => h2 (List.mem_reverse.mp hc)) hrev
  exact ⟨List.reverse_inj.mp ha, List.reverse_inj.mp hb⟩

theorem encodeName_inj (f1 : String) (i1 : Nat) (f2 : String) (i2 : Nat)
    (h : encodeName f1 i1 = encodeName f2 i2) : f1 = f2 ∧ i1 = i2 := by
  have hdata : f1.data ++ ' ' :: (natToString i1).data =
      f2.data ++ ' ' :: (natToString i2).data := by
    have := congrArg String.data h
    simpa [encodeName, String.data_append, List.append_assoc] using this
  obtain ⟨hf, hn⟩ := splitLast f1.data (natToString i1).data f2.data
    (natToString i2).data ' ' (natToString_no_space i1) (natToString_no_space i2)
    hdata
  refine ⟨str_ext f1 f2 hf, ?_⟩
  exact natToString_inj i1 i2 (str_ext _ _ hn)

/-- C7 amended: the uid assigned at import is a deterministic pure function of
`(recording_id, sequence_id)` — `json2segments` gives every segment the uid
`uidString folder id`, the same on every run — and the name strings hashed for
distinct pairs are themselves distinct, so uids differ whenever the underlying
128-bit uuid5 (SHA-1) values do; absolute collision-freeness over all pairs is
impossible for a fixed-width hash (see the counterexample). -/
theorem c7_amended :
    (∀ (folder : String) (segs : List Seg),
      (json2segments folder segs).map Row.uid =
        segs.map (fun s => uidString folder s.id)) ∧
    (∀ (f1 : String) (i1 : Nat) (f2 : String) (i2 : Nat),
      encodeName f1 i1 = encodeName f2 i2 → f1 = f2 ∧ i1 = i2) := by
  constructor
  · intro folder segs
    rw [json2segments, List.map_map]
    rfl
  · exact encodeName_inj

/-- C7 witness: determinism on an empty import, and injectivity of the hashed
name applied at a concrete pair. -/
theorem c7_amended_witness :
    (json2segments "rec" []).map Row.uid = [] ∧ ("rec" = "rec" ∧ (0 : Nat) = 0) :=
  ⟨by simpa using c7_amended.1 "rec" [], c7_amended.2 "rec" 0 "rec" 0 rfl⟩

end SermonQC
